import Mathlib

/-!
# vsixdler: target resolution, file naming and query retry

A shallow embedding of the decision logic of `internal/marketplace`
(`download.go`, `client.go`, `types.go`) and of the request type and the
platform table of `internal/config` (`config.go`).

A request reaches the resolver only through `config.Load`, which validates
it: the claims about requests that name platforms are stated for requests
whose platforms are keys of `validPlatforms`, the check of `Config.Validate`.

Modelling conventions.

* A Go `string` is a Lean `String` (the strings reaching this code come out of
  the YAML and JSON decoders, so they are sequences of Unicode code points).
  The empty string is the zero value and stands for an absent field.
* A Go slice is a `List`; `append(s, x)` is `s ++ [x]`.
* A Go `map[string]bool` is `GoMap`, a list of key/value pairs with distinct
  keys; indexing a missing key gives `false`, the zero value.
* `log.Printf` calls are not modelled: they change no value the functions
  return. The `verbose` argument is kept in the signatures.
* A `for ... range` loop over a slice is a left fold of the loop body, the
  variables the body assigns being the accumulator.
-/

namespace Vsixdler

/-! ## internal/config/config.go -/

/-- The request type `config.Extension`. -/
structure Extension where
  ID : String
  Version : String
  Platforms : List String
  deriving DecidableEq, Repr

/-! ## internal/marketplace/types.go -/

/-- The response type `FileResult`. -/
structure FileResult where
  AssetType : String
  Source : String
  deriving DecidableEq, Repr

/-- The response type `PropertyResult`. -/
structure PropertyResult where
  Key : String
  Value : String
  deriving DecidableEq, Repr

/-- The response type `VersionResult`: one version entry of a query result.
An empty `TargetPlatform` is a universal build. -/
structure VersionResult where
  Version : String
  TargetPlatform : String
  Files : List FileResult
  Properties : List PropertyResult
  deriving DecidableEq, Repr

/-- The response type `Publisher`. -/
structure Publisher where
  Name : String
  deriving DecidableEq, Repr

/-- The response type `ExtensionResult`: the query result of one identifier. -/
structure ExtensionResult where
  Publisher : Publisher
  Name : String
  Versions : List VersionResult
  deriving DecidableEq, Repr

/-! ## Go runtime and standard library pieces used by the code -/

/-- Go `unicode.IsSpace`: in Latin-1 the characters tab, LF, VT, FF, CR, space,
U+0085 and U+00A0; above Latin-1 the code points of the `White_Space`
property. -/
def IsSpace (r : Char) : Bool :=
  let n := r.toNat
  if n ≤ 0xFF then
    n == 0x09 || n == 0x0A || n == 0x0B || n == 0x0C || n == 0x0D || n == 0x20
      || n == 0x85 || n == 0xA0
  else
    n == 0x1680 || (0x2000 ≤ n && n ≤ 0x200A) || n == 0x2028 || n == 0x2029
      || n == 0x202F || n == 0x205F || n == 0x3000

/-- Go `strings.TrimSpace`: the string without its leading and trailing white
space, white space being `unicode.IsSpace`. -/
def TrimSpace (s : String) : String :=
  String.mk ((s.data.dropWhile IsSpace).reverse.dropWhile IsSpace).reverse

/-- A Go `map[string]bool`: its key/value pairs, keys distinct. The `nil` map
and the empty map are both `[]` (they index and measure alike). -/
abbrev GoMap := List (String × Bool)

/-- Go `m[k]` on a `map[string]bool`: the stored value, `false` when `k` is
not a key. -/
def mapIndex : GoMap → String → Bool
  | [], _ => false
  | kv :: rest, k => if kv.1 == k then kv.2 else mapIndex rest k

/-- Go `m[k] = v`: overwrite the value of an existing key, else add the key. -/
def mapAssign : GoMap → String → Bool → GoMap
  | [], k, v => [(k, v)]
  | kv :: rest, k, v => if kv.1 == k then (k, v) :: rest else kv :: mapAssign rest k v

/-- Go `len(m)`: the number of keys. -/
def mapLen (m : GoMap) : Nat := m.length

/-! ## internal/config/config.go, the platform table -/

/-- The table `validPlatforms`. `Config.Validate` (config.go lines 86-90)
refuses a request that lists a platform `p` with `validPlatforms[p]` false, and
`config.Load` runs it before any request reaches the resolver. -/
def validPlatforms : GoMap :=
  [("win32-x64", true), ("win32-arm64", true), ("linux-x64", true), ("linux-arm64", true),
    ("linux-armhf", true), ("alpine-x64", true), ("alpine-arm64", true),
    ("darwin-x64", true), ("darwin-arm64", true), ("web", true)]

/-! ## internal/marketplace/download.go -/

/-- The resolved unit of work `DownloadTarget`; an empty `Platform` is a
universal target. -/
structure DownloadTarget where
  Extension : Extension
  Version : String
  Platform : String
  deriving DecidableEq, Repr

/-- The method `DownloadTarget.Filename`. -/
def DownloadTarget.Filename (d : DownloadTarget) : String :=
  let name := d.Extension.ID ++ "-" ++ d.Version
  let name := if d.Platform != "" then name ++ ("@" ++ d.Platform) else name
  name ++ ".vsix"

/-- The function `toSet`: `nil` for an empty slice, else the map sending the
white-space-trimmed form of every item to `true`. -/
def toSet (items : List String) : GoMap :=
  if items.length == 0 then []
  else items.foldl (fun m item => mapAssign m (TrimSpace item) true) []

/-- The body of the loop of `resolvePinned` (download.go lines 67-81): the
value of `targets` after one version entry. -/
def resolvePinnedStep (ext : Extension) (wantPlatforms : GoMap)
    (targets : List DownloadTarget) (ver : VersionResult) : List DownloadTarget :=
  if ver.Version != ext.Version then targets
  else if mapLen wantPlatforms > 0 then
    if ver.TargetPlatform != "" && mapIndex wantPlatforms ver.TargetPlatform then
      targets ++ [DownloadTarget.mk ext ver.Version ver.TargetPlatform]
    else targets
  else
    if ver.TargetPlatform == "" then
      targets ++ [DownloadTarget.mk ext ver.Version ""]
    else targets

/-- The function `resolvePinned`. -/
def resolvePinned (ext : Extension) (result : ExtensionResult) (verbose : Bool) :
    List DownloadTarget :=
  let wantPlatforms := toSet ext.Platforms
  let targets := result.Versions.foldl (resolvePinnedStep ext wantPlatforms) []
  let targets :=
    if mapLen wantPlatforms > 0 && targets.length == 0 then
      targets ++ [DownloadTarget.mk ext ext.Version ""]
    else targets
  let targets :=
    if targets.length == 0 then
      targets ++ [DownloadTarget.mk ext ext.Version ""]
    else targets
  targets

/-- The body of the loop of `resolveLatest` (download.go lines 117-122): the
values of `seen` and `targets` after one version entry. -/
def resolveLatestStep (ext : Extension) (wantPlatforms : GoMap)
    (st : GoMap × List DownloadTarget) (ver : VersionResult) :
    GoMap × List DownloadTarget :=
  if ver.TargetPlatform != "" && mapIndex wantPlatforms ver.TargetPlatform
      && !mapIndex st.1 ver.TargetPlatform then
    (mapAssign st.1 ver.TargetPlatform true,
      st.2 ++ [DownloadTarget.mk ext ver.Version ver.TargetPlatform])
  else st

/-- The function `resolveLatest`. -/
def resolveLatest (ext : Extension) (result : ExtensionResult) (verbose : Bool) :
    List DownloadTarget :=
  let targets : List DownloadTarget := []
  let wantPlatforms := toSet ext.Platforms
  if mapLen wantPlatforms == 0 then
    if h : result.Versions.length > 0 then
      let ver := result.Versions.get ⟨0, h⟩
      targets ++ [DownloadTarget.mk ext ver.Version ver.TargetPlatform]
    else targets
  else
    let seen : GoMap := []
    let targets := (result.Versions.foldl (resolveLatestStep ext wantPlatforms) (seen, targets)).2
    if h : targets.length = 0 ∧ result.Versions.length > 0 then
      targets ++ [DownloadTarget.mk ext (result.Versions.get ⟨0, h.2⟩).Version ""]
    else targets

/-! ## internal/marketplace/client.go -/

/-- The constant `maxRetries`. -/
def maxRetries : Nat := 3

/-- The constant `time.Second`, a `time.Duration` counted in nanoseconds. -/
def second : Nat := 1000000000

/-- The constant `retryBaseWait = 2 * time.Second`. -/
def retryBaseWait : Nat := 2 * second

/-- What one call of `doWithRetry` does, as far as a caller or the clock can
see: the error it returns (`none` is `nil`), how many times it called `c.do`,
the durations it handed to `time.Sleep` in order, and whether control came to
the `return nil` that follows the loop. -/
structure RetryRun (ε : Type) where
  err : Option ε
  attempts : Nat
  sleeps : List Nat
  afterLoop : Bool
  deriving DecidableEq, Repr

/-- The loop of `Client.doWithRetry` over the values of `attempt` still to
come. `exchange k` is the outcome of the `k`-th call of `c.do` (counted from
0): `none` for a `nil` error, `some e` for the error `e`. The wait is an
`int64` count of nanoseconds; it is computed for `attempt < 2` only, so it is
at most four seconds and the product never wraps. -/
def doWithRetryLoop {ε : Type} (exchange : Nat → Option ε) :
    List Nat → RetryRun ε → RetryRun ε
  | [], run => RetryRun.mk none run.attempts run.sleeps true
  | attempt :: rest, run =>
    match exchange run.attempts with
    | none => RetryRun.mk none (run.attempts + 1) run.sleeps false
    | some err =>
      if attempt < maxRetries - 1 then
        let wait := retryBaseWait * (1 <<< attempt)
        doWithRetryLoop exchange rest
          (RetryRun.mk none (run.attempts + 1) (run.sleeps ++ [wait]) false)
      else RetryRun.mk (some err) (run.attempts + 1) run.sleeps false

/-- The method `Client.doWithRetry`: `for attempt := range maxRetries`. -/
def doWithRetry {ε : Type} (exchange : Nat → Option ε) : RetryRun ε :=
  doWithRetryLoop exchange (List.range maxRetries) (RetryRun.mk none 0 [] false)

/-! ## Vocabulary of the specification -/

/-- A platform tag is wanted by a list of platform names when it is present
(non-empty) and is one of the names. -/
def wanted (names : List String) (tag : String) : Bool :=
  tag != "" && names.contains tag

/-- A version entry qualifies for a pinned request, against a list of requested
platform names: it is at the pinned version, and its platform tag is absent
when no platform is requested, wanted when some are. -/
def qualifies (names : List String) (ext : Extension) (ver : VersionResult) : Bool :=
  ver.Version == ext.Version &&
    (if names.isEmpty then ver.TargetPlatform == "" else wanted names ver.TargetPlatform)

/-- A platform name has no surrounding white space: neither its first nor its
last character is white space. -/
def noSurroundingSpace (p : String) : Bool :=
  (match p.data.head? with
    | some c => !IsSpace c
    | none => true) &&
  (match p.data.getLast? with
    | some c => !IsSpace c
    | none => true)

/-! ## Sample requests and query results -/

/-- A version entry with no files and no properties. -/
def entry (version platform : String) : VersionResult :=
  VersionResult.mk version platform [] []

/-- The query result of `ms-python.python` with the given version entries. -/
def queryResult (versions : List VersionResult) : ExtensionResult :=
  ExtensionResult.mk (Publisher.mk "ms-python") "python" versions

/-- A request for `ms-python.python`. -/
def request (version : String) (platforms : List String) : Extension :=
  Extension.mk "ms-python.python" version platforms

/-- A query result with platform builds of several versions, newest first. -/
def mixedResult : ExtensionResult :=
  queryResult [entry "2024.4.0" "linux-x64", entry "2024.4.0" "win32-x64",
    entry "2024.2.0" "win32-x64", entry "2024.2.0" "linux-x64",
    entry "2024.2.0" "darwin-arm64", entry "2024.0.0" ""]

/-- A query result with universal builds only, newest first. -/
def universalResult : ExtensionResult :=
  queryResult [entry "2024.4.0" "", entry "2024.2.0" "", entry "2024.0.0" ""]

/-! ## Facts about the map model and `toSet` -/

theorem mapIndex_mapAssign (m : GoMap) (k : String) (v : Bool) (j : String) :
    mapIndex (mapAssign m k v) j = if k = j then v else mapIndex m j := by
  induction m with
  | nil => simp [mapAssign, mapIndex]
  | cons kv rest ih =>
    by_cases hk : kv.1 = k
    · by_cases hj : k = j
      · simp [mapAssign, mapIndex, hk, hj]
      · simp [mapAssign, mapIndex, hk, hj]
    · by_cases hj : kv.1 = j
      · have hkj : ¬ k = j := fun h => hk (hj.trans h.symm)
        have hjk : ¬ j = k := fun h => hkj h.symm
        simp [mapAssign, mapIndex, hj, hkj, hjk]
      · simp [mapAssign, mapIndex, hk, hj, ih]

theorem mapAssign_ne_nil (m : GoMap) (k : String) (v : Bool) : mapAssign m k v ≠ [] := by
  cases m with
  | nil => simp [mapAssign]
  | cons kv rest =>
    by_cases hk : kv.1 = k <;> simp [mapAssign, hk]

theorem mapIndex_foldl_assign (items : List String) (m : GoMap) (j : String) :
    mapIndex (items.foldl (fun m item => mapAssign m (TrimSpace item) true) m) j = true ↔
      mapIndex m j = true ∨ j ∈ items.map TrimSpace := by
  induction items generalizing m with
  | nil => simp
  | cons item rest ih =>
    rw [List.foldl_cons, ih, mapIndex_mapAssign]
    by_cases h : TrimSpace item = j
    · simp [h]
    · have h2 : ¬ j = TrimSpace item := fun e => h e.symm
      simp [h, h2]

theorem foldl_assign_ne_nil (items : List String) (m : GoMap) (h : m ≠ []) :
    items.foldl (fun m item => mapAssign m (TrimSpace item) true) m ≠ [] := by
  induction items generalizing m with
  | nil => simpa using h
  | cons item rest ih =>
    rw [List.foldl_cons]
    exact ih _ (mapAssign_ne_nil _ _ _)

/-- Indexing the set built by `toSet`: a key is in it exactly when it is the
trimmed form of one of the items. -/
theorem mapIndex_toSet (items : List String) (j : String) :
    mapIndex (toSet items) j = (items.map TrimSpace).contains j := by
  rw [Bool.eq_iff_iff]
  unfold toSet
  cases items with
  | nil => simp [mapIndex]
  | cons item rest =>
    have := mapIndex_foldl_assign (item :: rest) [] j
    simp only [List.length_cons, Nat.succ_ne_zero, beq_iff_eq, if_false]
    rw [this]
    simp [mapIndex]

/-- The set built by `toSet` is empty exactly when the slice is. -/
theorem mapLen_toSet_pos (items : List String) : 0 < mapLen (toSet items) ↔ items ≠ [] := by
  unfold toSet mapLen
  cases items with
  | nil => simp
  | cons item rest =>
    simp only [List.length_cons, Nat.succ_ne_zero, beq_iff_eq, if_false, List.foldl_cons]
    have := foldl_assign_ne_nil rest (mapAssign [] (TrimSpace item) true) (mapAssign_ne_nil _ _ _)
    simp [List.length_pos, this]

/-! ## `resolvePinned` -/

theorem resolvePinnedStep_eq (ext : Extension) (targets : List DownloadTarget)
    (ver : VersionResult) :
    resolvePinnedStep ext (toSet ext.Platforms) targets ver =
      if qualifies (ext.Platforms.map TrimSpace) ext ver then
        targets ++ [DownloadTarget.mk ext ext.Version ver.TargetPlatform]
      else targets := by
  unfold resolvePinnedStep qualifies wanted
  by_cases hv : ver.Version = ext.Version
  · by_cases hp : ext.Platforms = []
    · by_cases ht : ver.TargetPlatform = ""
      · simp [hv, hp, ht, toSet, mapLen]
      · simp [hv, hp, ht, toSet, mapLen]
    · have h0 : 0 < mapLen (toSet ext.Platforms) := (mapLen_toSet_pos _).2 hp
      simp only [mapIndex_toSet]
      simp [hv, hp, h0]
  · simp [hv]

theorem foldl_resolvePinnedStep (ext : Extension) (vers : List VersionResult)
    (targets : List DownloadTarget) :
    vers.foldl (resolvePinnedStep ext (toSet ext.Platforms)) targets =
      targets ++ (vers.filter (qualifies (ext.Platforms.map TrimSpace) ext)).map
        (fun ver => DownloadTarget.mk ext ext.Version ver.TargetPlatform) := by
  induction vers generalizing targets with
  | nil => simp
  | cons ver rest ih =>
    rw [List.foldl_cons, ih, resolvePinnedStep_eq]
    by_cases hq : qualifies (ext.Platforms.map TrimSpace) ext ver = true
    · simp [hq]
    · simp [hq]

/-- What `resolvePinned` returns, in closed form: one target per qualifying
entry, or the single universal target of the fallbacks when there is none. -/
theorem resolvePinned_eq (ext : Extension) (result : ExtensionResult) (verbose : Bool) :
    resolvePinned ext result verbose =
      if result.Versions.filter (qualifies (ext.Platforms.map TrimSpace) ext) = [] then
        [DownloadTarget.mk ext ext.Version ""]
      else
        (result.Versions.filter (qualifies (ext.Platforms.map TrimSpace) ext)).map
          (fun ver => DownloadTarget.mk ext ext.Version ver.TargetPlatform) := by
  unfold resolvePinned
  simp only [foldl_resolvePinnedStep, List.nil_append]
  by_cases hM : result.Versions.filter (qualifies (ext.Platforms.map TrimSpace) ext) = []
  · by_cases h0 : mapLen (toSet ext.Platforms) = 0
    · simp [hM, h0]
    · have hpos : 0 < mapLen (toSet ext.Platforms) := Nat.pos_of_ne_zero h0
      simp [hM, h0, hpos]
  · simp [hM]

/-! ## `resolveLatest` -/

theorem wanted_iff_mapIndex (ext : Extension) (k : String) :
    (k ≠ "" ∧ mapIndex (toSet ext.Platforms) k = true) ↔
      wanted (ext.Platforms.map TrimSpace) k = true := by
  unfold wanted
  rw [mapIndex_toSet]
  simp

/-- The loop invariant of `resolveLatest`, after the entries `pre`: `seen`
holds the wanted tags met so far, and for every tag the targets carrying it
are: none when the tag is not wanted or not met, else the one target built
from the first entry that carries it. -/
theorem resolveLatest_loop (ext : Extension) (pre : List VersionResult) :
    (∀ k, mapIndex (pre.foldl (resolveLatestStep ext (toSet ext.Platforms)) ([], [])).1 k = true ↔
      (wanted (ext.Platforms.map TrimSpace) k = true ∧ ∃ e ∈ pre, e.TargetPlatform = k)) ∧
    (∀ k, (pre.foldl (resolveLatestStep ext (toSet ext.Platforms)) ([], [])).2.filter
        (fun t => t.Platform == k) =
      if wanted (ext.Platforms.map TrimSpace) k then
        ((pre.find? (fun e => e.TargetPlatform == k)).map
          (fun e => DownloadTarget.mk ext e.Version k)).toList
      else []) := by
  induction pre using List.reverseRecOn with
  | nil => simp [mapIndex]
  | append_singleton pre e ih =>
    rw [List.foldl_append]
    simp only [List.foldl_cons, List.foldl_nil]
    generalize pre.foldl (resolveLatestStep ext (toSet ext.Platforms)) ([], []) = st at ih ⊢
    obtain ⟨ha, hb⟩ := ih
    have hw := wanted_iff_mapIndex ext e.TargetPlatform
    unfold resolveLatestStep
    by_cases hwant : wanted (ext.Platforms.map TrimSpace) e.TargetPlatform = true
    · obtain ⟨hne, hidx⟩ := hw.2 hwant
      by_cases hseen : mapIndex st.1 e.TargetPlatform = true
      · have hcond : (e.TargetPlatform != "" && mapIndex (toSet ext.Platforms) e.TargetPlatform
            && !mapIndex st.1 e.TargetPlatform) = false := by simp [hseen]
        simp only [hcond, Bool.false_eq_true, if_false]
        obtain ⟨_, e0, he0, hte0⟩ := (ha e.TargetPlatform).1 hseen
        refine ⟨fun k => ?_, fun k => ?_⟩
        · rw [ha k]
          constructor
          · rintro ⟨h1, x, hx, ht⟩
            exact ⟨h1, x, List.mem_append_left _ hx, ht⟩
          · rintro ⟨h1, x, hx, ht⟩
            rcases List.mem_append.1 hx with h | h
            · exact ⟨h1, x, h, ht⟩
            · have hxe : x = e := by simpa using h
              subst hxe
              exact ⟨h1, e0, he0, hte0.trans ht⟩
        · rw [hb k]
          by_cases hk : wanted (ext.Platforms.map TrimSpace) k = true
          · simp only [hk, if_true]
            rw [List.find?_append]
            by_cases hek : e.TargetPlatform = k
            · have hsome : (pre.find? (fun x => x.TargetPlatform == k)).isSome = true := by
                rw [List.find?_isSome]
                exact ⟨e0, he0, by simp [hte0, hek]⟩
              obtain ⟨x, hx⟩ := Option.isSome_iff_exists.1 hsome
              simp [hx]
            · simp [List.find?_cons, hek]
          · simp [hk]
      · have hcond : (e.TargetPlatform != "" && mapIndex (toSet ext.Platforms) e.TargetPlatform
            && !mapIndex st.1 e.TargetPlatform) = true := by simp [hne, hidx, hseen]
        simp only [hcond, if_true]
        have hnone : pre.find? (fun x => x.TargetPlatform == e.TargetPlatform) = none := by
          rw [List.find?_eq_none]
          intro x hx hxe
          exact hseen ((ha e.TargetPlatform).2 ⟨hwant, x, hx, by simpa using hxe⟩)
        refine ⟨fun k => ?_, fun k => ?_⟩
        · rw [mapIndex_mapAssign]
          by_cases hek : e.TargetPlatform = k
          · subst hek
            simp only [if_true, true_iff]
            exact ⟨hwant, e, by simp, rfl⟩
          · simp only [hek, if_false]
            rw [ha k]
            constructor
            · rintro ⟨h1, x, hx, ht⟩
              exact ⟨h1, x, List.mem_append_left _ hx, ht⟩
            · rintro ⟨h1, x, hx, ht⟩
              rcases List.mem_append.1 hx with h | h
              · exact ⟨h1, x, h, ht⟩
              · have hxe : x = e := by simpa using h
                subst hxe
                exact absurd ht hek
        · rw [List.filter_append, hb k, List.find?_append]
          by_cases hek : e.TargetPlatform = k
          · subst hek
            simp [hwant, hnone, List.find?_cons]
          · by_cases hk : wanted (ext.Platforms.map TrimSpace) k = true
            · simp [hk, hek, List.find?_cons]
            · simp [hk, hek]
    · have hcond : (e.TargetPlatform != "" && mapIndex (toSet ext.Platforms) e.TargetPlatform
          && !mapIndex st.1 e.TargetPlatform) = false := by
        rcases Bool.eq_false_or_eq_true
          (e.TargetPlatform != "" && mapIndex (toSet ext.Platforms) e.TargetPlatform) with h | h
        · exact absurd (hw.1 (by simpa using h)) hwant
        · simp [h]
      simp only [hcond, Bool.false_eq_true, if_false]
      refine ⟨fun k => ?_, fun k => ?_⟩
      · rw [ha k]
        constructor
        · rintro ⟨h1, x, hx, ht⟩
          exact ⟨h1, x, List.mem_append_left _ hx, ht⟩
        · rintro ⟨h1, x, hx, ht⟩
          rcases List.mem_append.1 hx with h | h
          · exact ⟨h1, x, h, ht⟩
          · have hxe : x = e := by simpa using h
            subst hxe
            exact absurd (ht ▸ h1) hwant
      · rw [hb k]
        by_cases hk : wanted (ext.Platforms.map TrimSpace) k = true
        · have hek : ¬ e.TargetPlatform = k := fun h => hwant (h ▸ hk)
          simp [hk, hek, List.find?_cons]
        · simp [hk]

/-- Every target the loop of `resolveLatest` builds comes from the first entry
that carries its platform, and that platform is wanted. -/
theorem resolveLatest_loop_mem (ext : Extension) (vers : List VersionResult)
    (t : DownloadTarget)
    (ht : t ∈ (vers.foldl (resolveLatestStep ext (toSet ext.Platforms)) ([], [])).2) :
    wanted (ext.Platforms.map TrimSpace) t.Platform = true ∧
      ∃ e, vers.find? (fun x => x.TargetPlatform == t.Platform) = some e ∧
        t = DownloadTarget.mk ext e.Version t.Platform := by
  have hb := (resolveLatest_loop ext vers).2 t.Platform
  have hmem : t ∈ (vers.foldl (resolveLatestStep ext (toSet ext.Platforms)) ([], [])).2.filter
      (fun x => x.Platform == t.Platform) := by
    rw [List.mem_filter]
    exact ⟨ht, by simp⟩
  rw [hb] at hmem
  by_cases hw : wanted (ext.Platforms.map TrimSpace) t.Platform = true
  · refine ⟨hw, ?_⟩
    simp only [hw, if_true] at hmem
    cases hf : vers.find? (fun x => x.TargetPlatform == t.Platform) with
    | none => simp [hf] at hmem
    | some e =>
      refine ⟨e, rfl, ?_⟩
      simpa [hf] using hmem
  · simp [hw] at hmem

/-- The loop of `resolveLatest` builds no target exactly when no entry carries
a wanted platform. -/
theorem resolveLatest_loop_eq_nil (ext : Extension) (vers : List VersionResult) :
    (vers.foldl (resolveLatestStep ext (toSet ext.Platforms)) ([], [])).2 = [] ↔
      ∀ e ∈ vers, wanted (ext.Platforms.map TrimSpace) e.TargetPlatform = false := by
  constructor
  · intro hnil e he
    have hb := (resolveLatest_loop ext vers).2 e.TargetPlatform
    rw [hnil] at hb
    by_cases hw : wanted (ext.Platforms.map TrimSpace) e.TargetPlatform = true
    · exfalso
      simp only [hw, if_true, List.filter_nil] at hb
      have hsome : (vers.find? (fun x => x.TargetPlatform == e.TargetPlatform)).isSome = true := by
        rw [List.find?_isSome]
        exact ⟨e, he, by simp⟩
      obtain ⟨x, hx⟩ := Option.isSome_iff_exists.1 hsome
      simp [hx] at hb
    · simpa using hw
  · intro hall
    rw [List.eq_nil_iff_forall_not_mem]
    intro t ht
    obtain ⟨hw, e, hf, _⟩ := resolveLatest_loop_mem ext vers t ht
    have he := List.mem_of_find?_eq_some hf
    have hte : e.TargetPlatform = t.Platform := by
      simpa using List.find?_some hf
    have := hall e he
    rw [hte, hw] at this
    exact Bool.noConfusion this

/-- What `resolveLatest` returns when the request names platforms. -/
theorem resolveLatest_eq_of_platforms (ext : Extension) (result : ExtensionResult)
    (verbose : Bool) (hp : ext.Platforms ≠ []) :
    resolveLatest ext result verbose =
      if (result.Versions.foldl (resolveLatestStep ext (toSet ext.Platforms)) ([], [])).2 = [] then
        (result.Versions.head?.map (fun ver => DownloadTarget.mk ext ver.Version "")).toList
      else (result.Versions.foldl (resolveLatestStep ext (toSet ext.Platforms)) ([], [])).2 := by
  have h0 : ¬ mapLen (toSet ext.Platforms) = 0 :=
    Nat.pos_iff_ne_zero.1 ((mapLen_toSet_pos _).2 hp)
  unfold resolveLatest
  simp only [beq_iff_eq, h0, if_false]
  obtain ⟨pub, name, vers⟩ := result
  simp only
  split
  · rename_i h
    have hnil := List.length_eq_zero.1 h.1
    cases vers with
    | nil => exact absurd h.2 (by simp)
    | cons ver rest =>
      simp only [List.get_eq_getElem, List.getElem_cons_zero]
      rw [hnil]
      simp
  · rename_i h
    by_cases hnil : (vers.foldl (resolveLatestStep ext (toSet ext.Platforms)) ([], [])).2 = []
    · cases vers with
      | nil => simp
      | cons ver rest => exact absurd ⟨List.length_eq_zero.2 hnil, by simp⟩ h
    · simp [hnil]

/-- What `resolveLatest` returns when the request names no platform. -/
theorem resolveLatest_eq_of_no_platforms (ext : Extension) (result : ExtensionResult)
    (verbose : Bool) (hp : ext.Platforms = []) :
    resolveLatest ext result verbose =
      (result.Versions.head?.map
        (fun ver => DownloadTarget.mk ext ver.Version ver.TargetPlatform)).toList := by
  unfold resolveLatest
  obtain ⟨pub, name, vers⟩ := result
  simp only [hp, toSet, mapLen]
  cases vers with
  | nil => simp
  | cons ver rest => simp

/-! ## `strings.TrimSpace` on names without surrounding white space -/

theorem dropWhile_isSpace_eq_self (l : List Char)
    (h : ∀ c, l.head? = some c → IsSpace c = false) : l.dropWhile IsSpace = l := by
  cases l with
  | nil => rfl
  | cons c rest =>
    have hc : IsSpace c = false := h c rfl
    simp [List.dropWhile_cons, hc]

theorem TrimSpace_eq_self (p : String) (h : noSurroundingSpace p = true) : TrimSpace p = p := by
  obtain ⟨l⟩ := p
  unfold noSurroundingSpace at h
  simp only [Bool.and_eq_true] at h
  obtain ⟨hhead, hlast⟩ := h
  have h1 : l.dropWhile IsSpace = l := by
    apply dropWhile_isSpace_eq_self
    intro c hc
    rw [hc] at hhead
    simpa using hhead
  have h2 : l.reverse.dropWhile IsSpace = l.reverse := by
    apply dropWhile_isSpace_eq_self
    intro c hc
    rw [List.head?_reverse] at hc
    rw [hc] at hlast
    simpa using hlast
  unfold TrimSpace
  simp only [h1, h2, List.reverse_reverse]

theorem map_TrimSpace_eq_self (names : List String)
    (h : ∀ p ∈ names, noSurroundingSpace p = true) : names.map TrimSpace = names := by
  induction names with
  | nil => rfl
  | cons p rest ih =>
    rw [List.map_cons, TrimSpace_eq_self p (h p (List.mem_cons_self _ _)),
      ih (fun q hq => h q (List.mem_cons_of_mem _ hq))]

/-- Every key of `validPlatforms` is non-empty and has no surrounding white
space. -/
theorem validPlatforms_clean (p : String) (h : mapIndex validPlatforms p = true) :
    p ≠ "" ∧ noSurroundingSpace p = true := by
  have hmem : p ∈ validPlatforms.map Prod.fst := by
    simp only [validPlatforms, mapIndex] at h
    simp only [validPlatforms, List.map_cons, List.map_nil, List.mem_cons]
    by_contra hne
    simp only [not_or] at hne
    obtain ⟨h1, h2, h3, h4, h5, h6, h7, h8, h9, h10, _⟩ := hne
    have e1 : ¬ "win32-x64" = p := fun e => h1 e.symm
    have e2 : ¬ "win32-arm64" = p := fun e => h2 e.symm
    have e3 : ¬ "linux-x64" = p := fun e => h3 e.symm
    have e4 : ¬ "linux-arm64" = p := fun e => h4 e.symm
    have e5 : ¬ "linux-armhf" = p := fun e => h5 e.symm
    have e6 : ¬ "alpine-x64" = p := fun e => h6 e.symm
    have e7 : ¬ "alpine-arm64" = p := fun e => h7 e.symm
    have e8 : ¬ "darwin-x64" = p := fun e => h8 e.symm
    have e9 : ¬ "darwin-arm64" = p := fun e => h9 e.symm
    have e10 : ¬ "web" = p := fun e => h10 e.symm
    simp [e1, e2, e3, e4, e5, e6, e7, e8, e9, e10] at h
  have hall : ∀ q ∈ validPlatforms.map Prod.fst, q ≠ "" ∧ noSurroundingSpace q = true := by
    decide
  exact hall p hmem

/-- Trimming changes nothing in the platform list of a validated request. -/
theorem map_TrimSpace_validated (ext : Extension)
    (hvalid : ∀ p ∈ ext.Platforms, mapIndex validPlatforms p = true) :
    ext.Platforms.map TrimSpace = ext.Platforms :=
  map_TrimSpace_eq_self _ (fun p hp => (validPlatforms_clean p (hvalid p hp)).2)

/-! ## `DownloadTarget.Filename` -/

theorem append_cons_cancel_of_not_mem {α : Type} (x : α) (a c b d : List α)
    (ha : x ∉ a) (hc : x ∉ c) (h : a ++ x :: b = c ++ x :: d) : a = c ∧ b = d := by
  induction a generalizing c with
  | nil =>
    cases c with
    | nil => simpa using h
    | cons y c =>
      simp only [List.nil_append, List.cons_append, List.cons.injEq] at h
      exact absurd (List.mem_cons_self _ _) (h.1 ▸ hc)
  | cons y a ih =>
    cases c with
    | nil =>
      simp only [List.nil_append, List.cons_append, List.cons.injEq] at h
      exact absurd (List.mem_cons_self _ _) (h.1 ▸ ha)
    | cons z c =>
      simp only [List.cons_append, List.cons.injEq] at h
      obtain ⟨hyz, hrest⟩ := h
      obtain ⟨h1, h2⟩ := ih c (fun hm => ha (List.mem_cons_of_mem _ hm))
        (fun hm => hc (List.mem_cons_of_mem _ hm)) hrest
      exact ⟨by rw [hyz, h1], h2⟩

/-- The characters of a file name: identifier, a dash, the version, then
either the extension alone or an at sign, the platform and the extension. -/
theorem Filename_data (d : DownloadTarget) :
    d.Filename.data = d.Extension.ID.data ++ '-' :: (d.Version.data ++
      (if d.Platform = "" then ['.', 'v', 's', 'i', 'x']
        else '@' :: (d.Platform.data ++ ['.', 'v', 's', 'i', 'x']))) := by
  unfold DownloadTarget.Filename
  by_cases hp : d.Platform = ""
  · simp [hp]
  · simp [hp]

/-- Two targets of one identifier with the same file name have the same
version and platform, as soon as they share their version, or share their
platform, or neither version contains an at sign. -/
theorem Filename_eq_imp (d1 d2 : DownloadTarget)
    (hid : d1.Extension.ID = d2.Extension.ID)
    (hat : d1.Version = d2.Version ∨ d1.Platform = d2.Platform ∨
      ('@' ∉ d1.Version.data ∧ '@' ∉ d2.Version.data))
    (h : d1.Filename = d2.Filename) :
    d1.Version = d2.Version ∧ d1.Platform = d2.Platform := by
  have hd := congrArg String.data h
  rw [Filename_data, Filename_data, hid] at hd
  have hd := List.append_cancel_left hd
  simp only [List.cons.injEq, true_and] at hd
  by_cases hp1 : d1.Platform = "" <;> by_cases hp2 : d2.Platform = ""
  · simp only [hp1, hp2, if_true] at hd
    exact ⟨String.ext (List.append_cancel_right hd), hp1.trans hp2.symm⟩
  · simp only [hp1, hp2, if_true, if_false] at hd
    rcases hat with hv | hpl | ⟨h1, _⟩
    · rw [hv] at hd
      have := List.append_cancel_left hd
      simp at this
    · exact absurd (hpl ▸ hp1) hp2
    · exfalso
      have hmem : '@' ∈ d1.Version.data ++ ['.', 'v', 's', 'i', 'x'] := by
        rw [hd]; simp
      rcases List.mem_append.1 hmem with hm | hm
      · exact h1 hm
      · simp at hm
  · simp only [hp1, hp2, if_true, if_false] at hd
    rcases hat with hv | hpl | ⟨_, h2⟩
    · rw [hv] at hd
      have := List.append_cancel_left hd
      simp at this
    · exact absurd (hpl ▸ hp2) hp1
    · exfalso
      have hmem : '@' ∈ d2.Version.data ++ ['.', 'v', 's', 'i', 'x'] := by
        rw [← hd]; simp
      rcases List.mem_append.1 hmem with hm | hm
      · exact h2 hm
      · simp at hm
  · simp only [hp1, hp2, if_false] at hd
    rcases hat with hv | hpl | ⟨h1, h2⟩
    · rw [hv] at hd
      have h3 := List.append_cancel_left hd
      simp only [List.cons.injEq, true_and] at h3
      exact ⟨hv, String.ext (List.append_cancel_right h3)⟩
    · rw [hpl] at hd
      exact ⟨String.ext (List.append_cancel_right hd), hpl⟩
    · obtain ⟨h3, h4⟩ := append_cons_cancel_of_not_mem '@' _ _ _ _ h1 h2 hd
      exact ⟨String.ext h3, String.ext (List.append_cancel_right h4)⟩

/-! ## `Client.doWithRetry` -/

/-- The run of `doWithRetry`, by the outcomes of the first three exchanges. -/
theorem doWithRetry_eq {ε : Type} (exchange : Nat → Option ε) :
    doWithRetry exchange =
      match exchange 0, exchange 1, exchange 2 with
      | none, _, _ => RetryRun.mk none 1 [] false
      | some _, none, _ => RetryRun.mk none 2 [retryBaseWait * 2 ^ 0] false
      | some _, some _, none =>
        RetryRun.mk none 3 [retryBaseWait * 2 ^ 0, retryBaseWait * 2 ^ 1] false
      | some _, some _, some e =>
        RetryRun.mk (some e) 3 [retryBaseWait * 2 ^ 0, retryBaseWait * 2 ^ 1] false := by
  unfold doWithRetry
  have hr : List.range maxRetries = [0, 1, 2] := by decide
  rw [hr]
  cases h0 : exchange 0 with
  | none => simp [doWithRetryLoop, h0]
  | some e0 =>
    cases h1 : exchange 1 with
    | none => simp [doWithRetryLoop, h0, h1, maxRetries]
    | some e1 =>
      cases h2 : exchange 2 with
      | none => simp [doWithRetryLoop, h0, h1, h2, maxRetries]
      | some e2 => simp [doWithRetryLoop, h0, h1, h2, maxRetries]

/-! ## The claims about `resolvePinned` -/

/-- C1. For every validated request and every query result, let M be the
version entries, in query-result order, whose version string equals the
pinned version and whose platform tag is absent when the request names no
platforms, or present and in the requested platform set when it names some.
Whenever M is non-empty, `resolvePinned` returns exactly one target per entry
of M, in that order, each carrying the request, the pinned version and the
platform tag of its entry, and nothing else. -/
theorem resolvePinned_one_target_per_match (ext : Extension) (result : ExtensionResult)
    (verbose : Bool)
    (hvalid : ∀ p ∈ ext.Platforms, mapIndex validPlatforms p = true)
    (hM : result.Versions.filter (qualifies ext.Platforms ext) ≠ []) :
    resolvePinned ext result verbose =
      (result.Versions.filter (qualifies ext.Platforms ext)).map
        (fun ver => DownloadTarget.mk ext ext.Version ver.TargetPlatform) := by
  rw [resolvePinned_eq, map_TrimSpace_validated ext hvalid, if_neg hM]

/-- C1, at concrete inputs: one universal entry at the pinned version gives one
universal target; entries for linux-x64 and darwin-arm64 at the pinned version
among other platforms and versions give the two targets of the two requested
platforms. -/
theorem resolvePinned_one_target_per_match_witness :
    ((∀ p ∈ (request "2024.2.0" []).Platforms, mapIndex validPlatforms p = true) ∧
      universalResult.Versions.filter
        (qualifies (request "2024.2.0" []).Platforms (request "2024.2.0" [])) ≠ [] ∧
      resolvePinned (request "2024.2.0" []) universalResult false =
        [DownloadTarget.mk (request "2024.2.0" []) "2024.2.0" ""]) ∧
    ((∀ p ∈ (request "2024.2.0" ["linux-x64", "darwin-arm64"]).Platforms,
        mapIndex validPlatforms p = true) ∧
      mixedResult.Versions.filter
        (qualifies (request "2024.2.0" ["linux-x64", "darwin-arm64"]).Platforms
          (request "2024.2.0" ["linux-x64", "darwin-arm64"])) ≠ [] ∧
      resolvePinned (request "2024.2.0" ["linux-x64", "darwin-arm64"]) mixedResult false =
        [DownloadTarget.mk (request "2024.2.0" ["linux-x64", "darwin-arm64"])
            "2024.2.0" "linux-x64",
          DownloadTarget.mk (request "2024.2.0" ["linux-x64", "darwin-arm64"])
            "2024.2.0" "darwin-arm64"]) :=
  ⟨⟨by decide, by decide,
      (resolvePinned_one_target_per_match (request "2024.2.0" []) universalResult false
        (by decide) (by decide)).trans (by decide)⟩,
    ⟨by decide, by decide,
      (resolvePinned_one_target_per_match (request "2024.2.0" ["linux-x64", "darwin-arm64"])
        mixedResult false (by decide) (by decide)).trans (by decide)⟩⟩

/-- C2. For every request and every query result, `resolvePinned` never
returns an empty sequence. For every validated request and every query result
in which no entry qualifies (none at the pinned version with a requested
platform tag when platforms are requested; no universal entry at the pinned
version when none are, the pinned version missing from the result included),
it returns exactly one target, carrying the request, the pinned version of the
request and no platform. -/
theorem resolvePinned_fallback (ext : Extension) (result : ExtensionResult) (verbose : Bool) :
    resolvePinned ext result verbose ≠ [] ∧
    ((∀ p ∈ ext.Platforms, mapIndex validPlatforms p = true) →
      result.Versions.filter (qualifies ext.Platforms ext) = [] →
      resolvePinned ext result verbose = [DownloadTarget.mk ext ext.Version ""]) := by
  constructor
  · rw [resolvePinned_eq]
    by_cases hM : result.Versions.filter (qualifies (ext.Platforms.map TrimSpace) ext) = []
    · simp [hM]
    · simp [hM]
  · intro hvalid hM
    rw [resolvePinned_eq, map_TrimSpace_validated ext hvalid, if_pos hM]

/-- C2, at concrete inputs: platforms requested while the pinned version exists
only as a universal entry; a platform requested that the pinned version is not
built for, though it is built for others; and a pinned version that the query
result does not list at all. Each gives the one universal target. -/
theorem resolvePinned_fallback_witness :
    (∀ p ∈ (request "2024.2.0" ["linux-x64", "darwin-arm64"]).Platforms,
      mapIndex validPlatforms p = true) ∧
    resolvePinned (request "2024.2.0" ["linux-x64", "darwin-arm64"]) universalResult false =
      [DownloadTarget.mk (request "2024.2.0" ["linux-x64", "darwin-arm64"]) "2024.2.0" ""] ∧
    resolvePinned (request "2024.2.0" ["alpine-x64"]) mixedResult false =
      [DownloadTarget.mk (request "2024.2.0" ["alpine-x64"]) "2024.2.0" ""] ∧
    resolvePinned (request "2019.1.0" []) mixedResult false =
      [DownloadTarget.mk (request "2019.1.0" []) "2019.1.0" ""] :=
  ⟨by decide,
    (resolvePinned_fallback (request "2024.2.0" ["linux-x64", "darwin-arm64"])
      universalResult false).2 (by decide) (by decide),
    (resolvePinned_fallback (request "2024.2.0" ["alpine-x64"]) mixedResult false).2
      (by decide) (by decide),
    (resolvePinned_fallback (request "2019.1.0" []) mixedResult false).2
      (by decide) (by decide)⟩

/-! ## The claims about `resolveLatest` -/

/-- C3. For every request naming platforms whose names are non-empty and have
no surrounding white space, and every query result in which some entry
carries a requested platform tag: for each requested platform p, if some
entry has tag p then the output of `resolveLatest` holds exactly one target
with platform p, at the version of the first entry whose tag is p; if no
entry has tag p the output holds no target for p; and every target of the
output has a requested platform. -/
theorem resolveLatest_first_entry_per_platform (ext : Extension) (result : ExtensionResult)
    (verbose : Bool)
    (hnames : ∀ p ∈ ext.Platforms, p ≠ "" ∧ noSurroundingSpace p = true)
    (hsome : ∃ e ∈ result.Versions, e.TargetPlatform ∈ ext.Platforms) :
    (∀ p ∈ ext.Platforms, (∃ e ∈ result.Versions, e.TargetPlatform = p) →
      ∃ first, result.Versions.find? (fun e => e.TargetPlatform == p) = some first ∧
        (resolveLatest ext result verbose).filter (fun t => t.Platform == p) =
          [DownloadTarget.mk ext first.Version p]) ∧
    (∀ p ∈ ext.Platforms, (∀ e ∈ result.Versions, e.TargetPlatform ≠ p) →
      ∀ t ∈ resolveLatest ext result verbose, t.Platform ≠ p) ∧
    (∀ t ∈ resolveLatest ext result verbose, t.Platform ∈ ext.Platforms) := by
  obtain ⟨e0, he0, hp0⟩ := hsome
  have hp : ext.Platforms ≠ [] := List.ne_nil_of_mem hp0
  have htrim : ext.Platforms.map TrimSpace = ext.Platforms :=
    map_TrimSpace_eq_self _ (fun p hpm => (hnames p hpm).2)
  have hwanted : ∀ p ∈ ext.Platforms, wanted (ext.Platforms.map TrimSpace) p = true := by
    intro p hpm
    rw [htrim]
    unfold wanted
    simp [hpm, (hnames p hpm).1]
  have hne : (result.Versions.foldl (resolveLatestStep ext (toSet ext.Platforms)) ([], [])).2 ≠ [] := by
    intro hnil
    have := (resolveLatest_loop_eq_nil ext result.Versions).1 hnil e0 he0
    rw [hwanted _ hp0] at this
    exact Bool.noConfusion this
  rw [resolveLatest_eq_of_platforms ext result verbose hp, if_neg hne]
  refine ⟨?_, ?_, ?_⟩
  · rintro p hpm ⟨e, he, hep⟩
    have hsomef : (result.Versions.find? (fun x => x.TargetPlatform == p)).isSome = true := by
      rw [List.find?_isSome]
      exact ⟨e, he, by simp [hep]⟩
    obtain ⟨first, hfirst⟩ := Option.isSome_iff_exists.1 hsomef
    refine ⟨first, hfirst, ?_⟩
    rw [(resolveLatest_loop ext result.Versions).2 p, hwanted p hpm, hfirst]
    simp
  · intro p _ hno t ht htp
    obtain ⟨_, e, hf, _⟩ := resolveLatest_loop_mem ext result.Versions t ht
    have hte : e.TargetPlatform = t.Platform := by simpa using List.find?_some hf
    exact hno e (List.mem_of_find?_eq_some hf) (hte.trans htp)
  · intro t ht
    obtain ⟨hw, _⟩ := resolveLatest_loop_mem ext result.Versions t ht
    rw [htrim] at hw
    unfold wanted at hw
    simp only [Bool.and_eq_true] at hw
    simpa using hw.2

/-- C3, at a concrete input: linux-x64 and darwin-arm64 requested; the newest
linux-x64 entry is at 2024.4.0, the only darwin-arm64 entry at 2024.2.0. -/
theorem resolveLatest_first_entry_per_platform_witness :
    (∀ p ∈ (request "" ["linux-x64", "darwin-arm64", "web"]).Platforms,
      p ≠ "" ∧ noSurroundingSpace p = true) ∧
    (∃ e ∈ mixedResult.Versions,
      e.TargetPlatform ∈ (request "" ["linux-x64", "darwin-arm64", "web"]).Platforms) ∧
    (resolveLatest (request "" ["linux-x64", "darwin-arm64", "web"]) mixedResult false).filter
        (fun t => t.Platform == "darwin-arm64") =
      [DownloadTarget.mk (request "" ["linux-x64", "darwin-arm64", "web"])
        "2024.2.0" "darwin-arm64"] ∧
    (∀ t ∈ resolveLatest (request "" ["linux-x64", "darwin-arm64", "web"]) mixedResult false,
      t.Platform ≠ "web") ∧
    (∀ t ∈ resolveLatest (request "" ["linux-x64", "darwin-arm64", "web"]) mixedResult false,
      t.Platform ∈ (request "" ["linux-x64", "darwin-arm64", "web"]).Platforms) :=
  ⟨by decide, by decide, by decide,
    (resolveLatest_first_entry_per_platform (request "" ["linux-x64", "darwin-arm64", "web"])
      mixedResult false (by decide) (by decide)).2.1 "web" (by decide) (by decide),
    (resolveLatest_first_entry_per_platform (request "" ["linux-x64", "darwin-arm64", "web"])
      mixedResult false (by decide) (by decide)).2.2⟩

/-- C4. For every request with no requested platforms and every query result
with at least one version entry, `resolveLatest` yields exactly one target,
whose version and platform are those of the first entry of the query result;
with an empty version list it yields no target. -/
theorem resolveLatest_newest_entry (ext : Extension) (result : ExtensionResult)
    (verbose : Bool) (hp : ext.Platforms = []) :
    (∀ ver rest, result.Versions = ver :: rest →
      resolveLatest ext result verbose =
        [DownloadTarget.mk ext ver.Version ver.TargetPlatform]) ∧
    (result.Versions = [] → resolveLatest ext result verbose = []) := by
  rw [resolveLatest_eq_of_no_platforms ext result verbose hp]
  constructor
  · intro ver rest hv
    simp [hv]
  · intro hv
    simp [hv]

/-- C4, at concrete inputs: a platform build first, a universal build first,
and an empty version list. -/
theorem resolveLatest_newest_entry_witness :
    (request "" []).Platforms = [] ∧
    resolveLatest (request "" []) mixedResult false =
      [DownloadTarget.mk (request "" []) "2024.4.0" "linux-x64"] ∧
    resolveLatest (request "" []) universalResult false =
      [DownloadTarget.mk (request "" []) "2024.4.0" ""] ∧
    resolveLatest (request "" []) (queryResult []) false = [] :=
  ⟨rfl,
    (resolveLatest_newest_entry (request "" []) mixedResult false rfl).1 _ _ rfl,
    (resolveLatest_newest_entry (request "" []) universalResult false rfl).1 _ _ rfl,
    (resolveLatest_newest_entry (request "" []) (queryResult []) false rfl).2 rfl⟩

/-- C5. For every validated request that names platforms and every non-empty
query result in which no entry has a platform tag that is one of the requested
platforms, `resolveLatest` yields exactly one target, with no platform and
with the version of the first entry of the query result. -/
theorem resolveLatest_universal_fallback (ext : Extension) (result : ExtensionResult)
    (verbose : Bool) (ver : VersionResult) (rest : List VersionResult)
    (hvalid : ∀ p ∈ ext.Platforms, mapIndex validPlatforms p = true)
    (hp : ext.Platforms ≠ [])
    (hnone : ∀ e ∈ result.Versions, e.TargetPlatform ∉ ext.Platforms)
    (hv : result.Versions = ver :: rest) :
    resolveLatest ext result verbose = [DownloadTarget.mk ext ver.Version ""] := by
  have hunwanted : ∀ e ∈ result.Versions,
      wanted (ext.Platforms.map TrimSpace) e.TargetPlatform = false := by
    intro e he
    rw [map_TrimSpace_validated ext hvalid]
    unfold wanted
    simp [hnone e he]
  rw [resolveLatest_eq_of_platforms ext result verbose hp,
    if_pos ((resolveLatest_loop_eq_nil ext result.Versions).2 hunwanted), hv]
  simp

/-- C5, at a concrete input: alpine-x64 and web requested, built for neither. -/
theorem resolveLatest_universal_fallback_witness :
    (∀ p ∈ (request "" ["alpine-x64", "web"]).Platforms, mapIndex validPlatforms p = true) ∧
    (request "" ["alpine-x64", "web"]).Platforms ≠ [] ∧
    (∀ e ∈ mixedResult.Versions,
      e.TargetPlatform ∉ (request "" ["alpine-x64", "web"]).Platforms) ∧
    resolveLatest (request "" ["alpine-x64", "web"]) mixedResult false =
      [DownloadTarget.mk (request "" ["alpine-x64", "web"]) "2024.4.0" ""] :=
  ⟨by decide, by decide, by decide,
    resolveLatest_universal_fallback (request "" ["alpine-x64", "web"]) mixedResult false
      _ _ (by decide) (by decide) (by decide) rfl⟩

/-! ## The invariants of the resolver -/

theorem resolvePinned_platform (ext : Extension) (result : ExtensionResult) (verbose : Bool)
    (hp : ext.Platforms ≠ []) (t : DownloadTarget) (ht : t ∈ resolvePinned ext result verbose) :
    t.Platform = "" ∨ t.Platform ∈ ext.Platforms.map TrimSpace := by
  rw [resolvePinned_eq] at ht
  split at ht
  · left
    rw [List.mem_singleton.1 ht]
  · right
    obtain ⟨ver, hver, rfl⟩ := List.mem_map.1 ht
    have hq := (List.mem_filter.1 hver).2
    unfold qualifies wanted at hq
    simp only [List.isEmpty_eq_true, List.map_eq_nil_iff, hp, if_false, Bool.and_eq_true] at hq
    simpa using hq.2.2

theorem resolveLatest_platform (ext : Extension) (result : ExtensionResult) (verbose : Bool)
    (hp : ext.Platforms ≠ []) (t : DownloadTarget) (ht : t ∈ resolveLatest ext result verbose) :
    t.Platform = "" ∨ t.Platform ∈ ext.Platforms.map TrimSpace := by
  rw [resolveLatest_eq_of_platforms ext result verbose hp] at ht
  split at ht
  · left
    cases hv : result.Versions with
    | nil => simp [hv] at ht
    | cons ver rest =>
      simp only [hv, List.head?_cons, Option.map_some', Option.toList_some,
        List.mem_singleton] at ht
      rw [ht]
  · right
    obtain ⟨hw, _⟩ := resolveLatest_loop_mem ext result.Versions t ht
    unfold wanted at hw
    simp only [Bool.and_eq_true] at hw
    simpa using hw.2

/-- C6. For every validated request that specifies platforms, pinned or not,
and every query result, every target produced by `resolvePinned` or by
`resolveLatest` either has no platform or has a platform that is one of the
platforms listed in the request. -/
theorem resolver_platform_absent_or_requested (ext : Extension) (result : ExtensionResult)
    (verbose : Bool)
    (hvalid : ∀ p ∈ ext.Platforms, mapIndex validPlatforms p = true)
    (hp : ext.Platforms ≠ []) :
    (∀ t ∈ resolvePinned ext result verbose,
      t.Platform = "" ∨ t.Platform ∈ ext.Platforms) ∧
    (∀ t ∈ resolveLatest ext result verbose,
      t.Platform = "" ∨ t.Platform ∈ ext.Platforms) := by
  refine ⟨fun t ht => ?_, fun t ht => ?_⟩
  · have := resolvePinned_platform ext result verbose hp t ht
    rwa [map_TrimSpace_validated ext hvalid] at this
  · have := resolveLatest_platform ext result verbose hp t ht
    rwa [map_TrimSpace_validated ext hvalid] at this

/-- C6, at concrete inputs: a pinned request whose targets carry the two
requested platforms, and an unpinned request of which one platform is built. -/
theorem resolver_platform_absent_or_requested_witness :
    (∀ p ∈ (request "2024.2.0" ["linux-x64", "darwin-arm64"]).Platforms,
      mapIndex validPlatforms p = true) ∧
    (request "2024.2.0" ["linux-x64", "darwin-arm64"]).Platforms ≠ [] ∧
    (∀ t ∈ resolvePinned (request "2024.2.0" ["linux-x64", "darwin-arm64"]) mixedResult false,
      t.Platform = "" ∨ t.Platform ∈ ["linux-x64", "darwin-arm64"]) ∧
    (∀ p ∈ (request "" ["linux-x64", "web"]).Platforms, mapIndex validPlatforms p = true) ∧
    (∀ t ∈ resolveLatest (request "" ["linux-x64", "web"]) mixedResult false,
      t.Platform = "" ∨ t.Platform ∈ ["linux-x64", "web"]) :=
  ⟨by decide, by decide,
    (resolver_platform_absent_or_requested (request "2024.2.0" ["linux-x64", "darwin-arm64"])
      mixedResult false (by decide) (by decide)).1,
    by decide,
    (resolver_platform_absent_or_requested (request "" ["linux-x64", "web"])
      mixedResult false (by decide) (by decide)).2⟩

theorem resolveLatest_version_of_entry (ext : Extension) (result : ExtensionResult)
    (verbose : Bool) (t : DownloadTarget) (ht : t ∈ resolveLatest ext result verbose) :
    ∃ e ∈ result.Versions, t.Version = e.Version := by
  by_cases hp : ext.Platforms = []
  · rw [resolveLatest_eq_of_no_platforms ext result verbose hp] at ht
    cases hv : result.Versions with
    | nil => simp [hv] at ht
    | cons ver rest =>
      simp only [hv, List.head?_cons, Option.map_some', Option.toList_some,
        List.mem_singleton] at ht
      exact ⟨ver, List.mem_cons_self _ _, by rw [ht]⟩
  · rw [resolveLatest_eq_of_platforms ext result verbose hp] at ht
    split at ht
    · cases hv : result.Versions with
      | nil => simp [hv] at ht
      | cons ver rest =>
        simp only [hv, List.head?_cons, Option.map_some', Option.toList_some,
          List.mem_singleton] at ht
        exact ⟨ver, List.mem_cons_self _ _, by rw [ht]⟩
    · obtain ⟨_, e, hf, hte⟩ := resolveLatest_loop_mem ext result.Versions t ht
      exact ⟨e, List.mem_of_find?_eq_some hf, by rw [hte]⟩

/-- C7 (amended). For every pinned request and every query result, every
target produced by `resolvePinned` has the pinned version of the request, a
non-empty string. For every request and every query result, every target
produced by `resolveLatest` has the version string of an entry of the query
result, so a non-empty one whenever every entry of the query result has a
non-empty version string. -/
theorem resolver_version_nonempty (ext : Extension) (result : ExtensionResult)
    (verbose : Bool) :
    (ext.Version ≠ "" →
      ∀ t ∈ resolvePinned ext result verbose, t.Version = ext.Version ∧ t.Version ≠ "") ∧
    (∀ t ∈ resolveLatest ext result verbose, ∃ e ∈ result.Versions, t.Version = e.Version) ∧
    ((∀ e ∈ result.Versions, e.Version ≠ "") →
      ∀ t ∈ resolveLatest ext result verbose, t.Version ≠ "") := by
  refine ⟨fun hpin t ht => ?_, resolveLatest_version_of_entry ext result verbose,
    fun hall t ht => ?_⟩
  · have hv : t.Version = ext.Version := by
      rw [resolvePinned_eq] at ht
      split at ht
      · rw [List.mem_singleton.1 ht]
      · obtain ⟨ver, _, rfl⟩ := List.mem_map.1 ht
        rfl
    exact ⟨hv, hv ▸ hpin⟩
  · obtain ⟨e, he, hte⟩ := resolveLatest_version_of_entry ext result verbose t ht
    rw [hte]
    exact hall e he

/-- C7, at concrete inputs: a pinned and an unpinned request against a query
result whose entries all have a version string. -/
theorem resolver_version_nonempty_witness :
    (∀ t ∈ resolvePinned (request "2024.2.0" ["linux-x64"]) mixedResult false,
      t.Version = "2024.2.0" ∧ t.Version ≠ "") ∧
    (∀ e ∈ mixedResult.Versions, e.Version ≠ "") ∧
    (∀ t ∈ resolveLatest (request "" ["linux-x64"]) mixedResult false, t.Version ≠ "") :=
  ⟨(resolver_version_nonempty (request "2024.2.0" ["linux-x64"]) mixedResult false).1
      (by decide),
    by decide,
    (resolver_version_nonempty (request "" ["linux-x64"]) mixedResult false).2.2 (by decide)⟩

/-- C7 as written fails: for an unpinned request and a query result whose
first entry has an empty version string (a version object without its
version field decodes so), `resolveLatest` produces a target with an empty
version. -/
theorem resolveLatest_empty_version_counterexample :
    (request "" []).Version = "" ∧
    resolveLatest (request "" []) (queryResult [entry "" "", entry "2024.2.0" ""]) false =
      [DownloadTarget.mk (request "" []) "" ""] ∧
    (∃ t ∈ resolveLatest (request "" []) (queryResult [entry "" "", entry "2024.2.0" ""]) false,
      t.Version = "") := by
  decide

/-! ## The claim about `DownloadTarget.Filename` -/

/-- C8 (amended). The file name of a target is its identifier, a dash and its
version, followed by `.vsix` when the platform is absent and by an at sign,
the platform and `.vsix` otherwise. Any two targets with the same identifier
that differ in version or in platform, and that share their version, or share
their platform, or both have a version string without an at sign, have
different file names. -/
theorem Filename_injective_per_identifier (d1 d2 : DownloadTarget)
    (hid : d1.Extension.ID = d2.Extension.ID)
    (hdiff : d1.Version ≠ d2.Version ∨ d1.Platform ≠ d2.Platform)
    (hat : d1.Version = d2.Version ∨ d1.Platform = d2.Platform ∨
      ('@' ∉ d1.Version.data ∧ '@' ∉ d2.Version.data)) :
    d1.Filename ≠ d2.Filename ∧
    (∀ d : DownloadTarget, d.Platform = "" →
      d.Filename = d.Extension.ID ++ "-" ++ d.Version ++ ".vsix") ∧
    (∀ d : DownloadTarget, d.Platform ≠ "" →
      d.Filename = d.Extension.ID ++ "-" ++ d.Version ++ "@" ++ d.Platform ++ ".vsix") := by
  refine ⟨fun h => ?_, fun d hd => ?_, fun d hd => ?_⟩
  · obtain ⟨hv, hp⟩ := Filename_eq_imp d1 d2 hid hat h
    rcases hdiff with h1 | h1
    · exact h1 hv
    · exact h1 hp
  · simp [DownloadTarget.Filename, hd]
  · simp [DownloadTarget.Filename, hd, String.append_assoc]

/-- C8, at concrete inputs: the universal and the linux-x64 target of one
version, and the linux-x64 targets of two versions. -/
theorem Filename_injective_per_identifier_witness :
    (DownloadTarget.mk (request "" []) "2024.2.0" "").Filename = "ms-python.python-2024.2.0.vsix" ∧
    (DownloadTarget.mk (request "" []) "2024.2.0" "linux-x64").Filename =
      "ms-python.python-2024.2.0@linux-x64.vsix" ∧
    (DownloadTarget.mk (request "" []) "2024.2.0" "").Filename ≠
      (DownloadTarget.mk (request "" []) "2024.2.0" "linux-x64").Filename ∧
    (DownloadTarget.mk (request "" []) "2024.4.0" "linux-x64").Filename ≠
      (DownloadTarget.mk (request "" []) "2024.2.0" "linux-x64").Filename :=
  ⟨by decide, by decide,
    (Filename_injective_per_identifier (DownloadTarget.mk (request "" []) "2024.2.0" "")
      (DownloadTarget.mk (request "" []) "2024.2.0" "linux-x64") rfl
      (Or.inr (by decide)) (Or.inl rfl)).1,
    (Filename_injective_per_identifier (DownloadTarget.mk (request "" []) "2024.4.0" "linux-x64")
      (DownloadTarget.mk (request "" []) "2024.2.0" "linux-x64") rfl
      (Or.inl (by decide)) (Or.inr (Or.inr (by decide)))).1⟩

/-- C8 as written fails: the universal target at version `2024.2.0@web`, which
`resolvePinned` builds for a request pinned at that string, and the web target
at version `2024.2.0` have the same identifier, differ in version and in
platform, and have the same file name. -/
theorem Filename_collision_counterexample :
    DownloadTarget.mk (request "2024.2.0@web" []) "2024.2.0@web" "" ∈
      resolvePinned (request "2024.2.0@web" []) mixedResult false ∧
    DownloadTarget.mk (request "2024.2.0" ["web"]) "2024.2.0" "web" ∈
      resolvePinned (request "2024.2.0" ["web"]) (queryResult [entry "2024.2.0" "web"]) false ∧
    (DownloadTarget.mk (request "2024.2.0@web" []) "2024.2.0@web" "").Extension.ID =
      (DownloadTarget.mk (request "2024.2.0" ["web"]) "2024.2.0" "web").Extension.ID ∧
    (DownloadTarget.mk (request "2024.2.0@web" []) "2024.2.0@web" "").Version ≠
      (DownloadTarget.mk (request "2024.2.0" ["web"]) "2024.2.0" "web").Version ∧
    (DownloadTarget.mk (request "2024.2.0@web" []) "2024.2.0@web" "").Platform ≠
      (DownloadTarget.mk (request "2024.2.0" ["web"]) "2024.2.0" "web").Platform ∧
    (DownloadTarget.mk (request "2024.2.0@web" []) "2024.2.0@web" "").Filename =
      (DownloadTarget.mk (request "2024.2.0" ["web"]) "2024.2.0" "web").Filename := by
  decide

/-! ## The claim about `Client.doWithRetry` -/

/-- C9. With the exchanges of `c.do` as a sequence of outcomes, `doWithRetry`
makes at most `maxRetries = 3` attempts, in order, and stops at the first
success: when exchange `k < 3` is the first to succeed it makes `k + 1`
attempts and returns no error; when the first three all fail it makes three
and returns the error of the third. It returns no error exactly when one of
the first three exchanges succeeds. After failed attempt `k < 2` it sleeps
`retryBaseWait * 2 ^ k`, two seconds and then four, and it does not sleep after
its last attempt. Control never comes to the `return nil` after the loop. -/
theorem doWithRetry_contract {ε : Type} (exchange : Nat → Option ε) :
    maxRetries = 3 ∧
    1 ≤ (doWithRetry exchange).attempts ∧
    (doWithRetry exchange).attempts ≤ maxRetries ∧
    (∀ k, k < 3 → exchange k = none → (∀ j, j < k → exchange j ≠ none) →
      (doWithRetry exchange).attempts = k + 1 ∧ (doWithRetry exchange).err = none) ∧
    ((∀ k, k < 3 → exchange k ≠ none) →
      (doWithRetry exchange).attempts = 3 ∧ (doWithRetry exchange).err = exchange 2) ∧
    ((doWithRetry exchange).err = none ↔ ∃ k, k < 3 ∧ exchange k = none) ∧
    (doWithRetry exchange).sleeps =
      (List.range ((doWithRetry exchange).attempts - 1)).map (fun k => retryBaseWait * 2 ^ k) ∧
    retryBaseWait * 2 ^ 0 = 2 * second ∧
    retryBaseWait * 2 ^ 1 = 4 * second ∧
    (doWithRetry exchange).afterLoop = false := by
  rw [doWithRetry_eq]
  refine ⟨rfl, ?_⟩
  cases h0 : exchange 0 with
  | none =>
    refine ⟨by simp, by simp [maxRetries], ?_, ?_, ?_, by simp, by decide, by decide, rfl⟩
    · intro k hk hs hfail
      interval_cases k
      · simp
      · exact absurd h0 (hfail 0 (by omega))
      · exact absurd h0 (hfail 0 (by omega))
    · intro hall
      exact absurd h0 (hall 0 (by omega))
    · simp only [true_iff]
      exact ⟨0, by omega, h0⟩
  | some e0 =>
    cases h1 : exchange 1 with
    | none =>
      refine ⟨by simp, by simp [maxRetries], ?_, ?_, ?_, by simp [List.range_succ], by decide,
        by decide, rfl⟩
      · intro k hk hs hfail
        interval_cases k
        · rw [h0] at hs; exact Option.noConfusion hs
        · simp
        · exact absurd h1 (hfail 1 (by omega))
      · intro hall
        exact absurd h1 (hall 1 (by omega))
      · simp only [true_iff]
        exact ⟨1, by omega, h1⟩
    | some e1 =>
      cases h2 : exchange 2 with
      | none =>
        refine ⟨by simp, by simp [maxRetries], ?_, ?_, ?_, by simp [List.range_succ], by decide,
          by decide, rfl⟩
        · intro k hk hs hfail
          interval_cases k
          · rw [h0] at hs; exact Option.noConfusion hs
          · rw [h1] at hs; exact Option.noConfusion hs
          · simp
        · intro hall
          exact absurd h2 (hall 2 (by omega))
        · simp only [true_iff]
          exact ⟨2, by omega, h2⟩
      | some e2 =>
        refine ⟨by simp, by simp [maxRetries], ?_, ?_, ?_, by simp [List.range_succ], by decide,
          by decide, rfl⟩
        · intro k hk hs hfail
          interval_cases k
          · rw [h0] at hs; exact Option.noConfusion hs
          · rw [h1] at hs; exact Option.noConfusion hs
          · rw [h2] at hs; exact Option.noConfusion hs
        · intro _
          simp
        · simp only [false_iff, reduceCtorEq]
          rintro ⟨k, hk, hs⟩
          interval_cases k
          · rw [h0] at hs; exact Option.noConfusion hs
          · rw [h1] at hs; exact Option.noConfusion hs
          · rw [h2] at hs; exact Option.noConfusion hs

/-- C9, at concrete inputs: two failures then a success give three attempts, no
error and sleeps of two and four seconds; failures throughout give three
attempts and the error of the third. -/
theorem doWithRetry_contract_witness :
    ((doWithRetry (fun k => if k < 2 then some k else none)).attempts = 3 ∧
      (doWithRetry (fun k => if k < 2 then some k else none)).err = none) ∧
    (doWithRetry (fun k => if k < 2 then some k else none)).sleeps =
      [2 * second, 4 * second] ∧
    ((doWithRetry (fun k => some (10 + k))).attempts = 3 ∧
      (doWithRetry (fun k => some (10 + k))).err = some 12) ∧
    (doWithRetry (fun k => some (10 + k))).sleeps = [2 * second, 4 * second] :=
  ⟨(doWithRetry_contract (fun k => if k < 2 then some k else none)).2.2.2.1 2 (by decide)
      (by decide) (by decide),
    by decide,
    (doWithRetry_contract (fun k => some (10 + k))).2.2.2.2.1 (by simp),
    by decide⟩

end Vsixdler
